import Mathlib

/-!
Verification development for the dynamix dense/spectral XPCS correlators
(file src/dynamix/correlator/dense.py).

Pixel data is embedded exactly: the float32 values handled by the code are
rationals, so frames take values in the rational numbers and all arithmetic
is exact.  The FFTW complex transforms are embedded as the discrete Fourier
transform over the complex numbers with the FFTW sign convention (forward
kernel exp(-2 pi i j k / N), backward kernel exp(+2 pi i j k / N) divided
by N, matching normalise_idft of pyfftw).

Arrays are embedded as functions from natural-number indices; a frame stack
is a function giving, for frame t and flattened (row-major) pixel index p,
the pixel value.  List-valued intermediates mirror the numpy expressions of
the source line by line.
-/

namespace Dynamix

/-- Indices selected by np.where applied to the comparison mask greater than
zero, in row-major order over the flattened pixel array (dense.py line 43).
The mask holds natural-number bin labels; zero means unused. -/
def npWhereGtZero (npix : ℕ) (mask : ℕ → ℕ) : List ℕ :=
  (List.range npix).filter (fun j => decide (0 < mask j))

/-- Dot product of two equal-length lists, as one entry of np.dot of a matrix
with its transpose is formed. -/
def listDot (xs ys : List ℚ) : ℚ :=
  (List.zipWith (fun a b => a * b) xs ys).sum

/-- Sum of the k-th upper diagonal of a T by T matrix, the way the source
forms np.sum of np.diag with offset k (dense.py lines 54-56): the list of
entries M j (j+k) for j ranging below T - k, then summed. -/
def npDiagSum (M : ℕ → ℕ → ℚ) (T k : ℕ) : ℚ :=
  ((List.range (T - k)).map (fun j => M j (j + k))).sum

/-- Shallow embedding of py_dense_correlator (dense.py lines 31-57).
Frames are given flattened: frames t p is the value of pixel p of frame t.
The function returns the curve entry at lag k; the source fills an array
res with exactly these values for k ranging over the frame count. -/
def py_dense_correlator (T npix : ℕ) (frames : ℕ → ℕ → ℚ) (mask : ℕ → ℕ)
    (k : ℕ) : ℚ :=
  let ind := npWhereGtZero npix mask
  let lenmatr := ind.length
  let xpcs_data : ℕ → List ℚ := fun t => ind.map (frames t)
  let meanmatr : ℕ → ℚ := fun t => (xpcs_data t).sum / lenmatr
  let num : ℕ → ℕ → ℚ := fun i j => listDot (xpcs_data i) (xpcs_data j)
  let denom : ℕ → ℕ → ℚ := fun i j => meanmatr i * meanmatr j
  npDiagSum num T k / npDiagSum denom T k / lenmatr

/-- Matrix of masked pixels: row t lists the selected pixels of frame t,
indexed by position in the selection list. -/
def maskedMatrix (frames : ℕ → ℕ → ℚ) (ind : List ℕ) : ℕ → ℕ → ℚ :=
  fun t j => frames t (ind.getD j 0)

/-- Mean of row t of a matrix with P columns. -/
def frameMean (P : ℕ) (X : ℕ → ℕ → ℚ) (t : ℕ) : ℚ :=
  (∑ j ∈ Finset.range P, X t j) / P

/-- Entry (i, j) of the product of X (with P columns) and its transpose. -/
def gram (P : ℕ) (X : ℕ → ℕ → ℚ) : ℕ → ℕ → ℚ :=
  fun i j => ∑ l ∈ Finset.range P, X i l * X j l

/-- Outer product of a vector with itself. -/
def outerSq (m : ℕ → ℚ) : ℕ → ℕ → ℚ := fun i j => m i * m j

/-- Sum of the k-th upper diagonal of a T by T matrix, written as a Finset
sum (the formula of the specification). -/
def upperDiagSum (M : ℕ → ℕ → ℚ) (T k : ℕ) : ℚ :=
  ∑ i ∈ Finset.range (T - k), M i (i + k)

/-- Complex exponential exp(2 pi i m / N).  The discrete Fourier transform
below follows the FFTW sign convention: the forward transform multiplies by
exp(-2 pi i j k / N); the backward transform multiplies by
exp(+2 pi i j k / N) and divides by N (pyfftw normalises the inverse). -/
noncomputable def eN (N : ℕ) (m : ℤ) : ℂ :=
  Complex.exp (2 * Real.pi * Complex.I * m / N)

/-- Forward discrete Fourier transform of the first N samples of a. -/
noncomputable def dft (N : ℕ) (a : ℕ → ℂ) (k : ℕ) : ℂ :=
  ∑ j ∈ Finset.range N, a j * eN N (-(j * k))

/-- Backward (normalised) discrete Fourier transform. -/
noncomputable def idft (N : ℕ) (b : ℕ → ℂ) (n : ℕ) : ℂ :=
  (N : ℂ)⁻¹ * ∑ k ∈ Finset.range N, b k * eN N (n * k)

/-- Modelled from the spec: the function nextpow2 lives in dynamix.utils,
which is not among the sources under review; section 4.4 of the
specification defines the padded buffer length as the next power of two at
least equal to the requested size. -/
def nextpow2 (n : ℕ) : ℕ := 2 ^ Nat.clog 2 n

/-- Contents of the FFTW direct buffer after the first L cells are assigned
(dense.py lines 409 and 412): cell i holds the signal sample for i below L
and keeps the previous buffer contents elsewhere.  The source never clears
the tail of the buffer. -/
noncomputable def fftwBuffer (L : ℕ) (s old : ℕ → ℂ) : ℕ → ℂ :=
  fun i => if i < L then s i else old i

/-- Row-major flattening of the (T, P) pixel matrix, cast to complex, as
np.ascontiguousarray of frames.ravel with dtype complex64 produces it. -/
noncomputable def flattenCpx (P : ℕ) (X : ℕ → ℕ → ℚ) : ℕ → ℂ :=
  fun i => ((X (i / P) (i % P) : ℚ) : ℂ)

/-- Complex contents of the direct buffer after one run of the method
correlate underscore 1d of DenseFFTwCorrelator on pixel matrix X with prior
buffer contents old: forward transform of the signal, forward transform of
the reversed signal, pointwise product, backward transform (which the FFTW
backward plan writes back into the direct buffer).  The real part of this
buffer is the array named res in the source (dense.py lines 409-416). -/
noncomputable def correlate1dRes (T P : ℕ) (X : ℕ → ℕ → ℚ) (old : ℕ → ℂ) :
    ℕ → ℂ :=
  let L := T * P
  let N := nextpow2 (2 * L)
  let s := flattenCpx P X
  let srev : ℕ → ℂ := fun i => s (L - 1 - i)
  let out1 := dft N (fftwBuffer L s old)
  let out2 := dft N (fftwBuffer L srev old)
  fun n => idft N (fun k => out1 k * out2 k) n

/-- Numerator at lag k: res restricted to the first T times P samples,
reshaped to (T, P), last pixel column, frame order reversed (dense.py line
418); entry k of that reversed column is res at flat index (T-k)*P - 1. -/
noncomputable def fftwNumerator (T P : ℕ) (X : ℕ → ℕ → ℚ) (old : ℕ → ℂ)
    (k : ℕ) : ℝ :=
  (correlate1dRes T P X old ((T - k) * P - 1)).re

/-- Embedding of np.correlate of two length-T sequences in full mode, output
index j ranging over 0 .. 2T-2 (dense.py line 420). -/
def npCorrelateFull (T : ℕ) (a v : ℕ → ℚ) (j : ℕ) : ℚ :=
  ∑ i ∈ Finset.range T,
    if j ≤ i + (T - 1) ∧ i + (T - 1) - j < T then a i * v (i + (T - 1) - j)
    else 0

/-- One bin of the spectral correlator: numerator over denominator over the
scale factor of the bin (dense.py line 422).  The denominator is the
nonnegative-lag half of the full autocorrelation of the per-frame means
(slice starting at index T - 1). -/
noncomputable def fftwCorrelate1d (T P : ℕ) (X : ℕ → ℕ → ℚ) (old : ℕ → ℂ)
    (scale : ℚ) (k : ℕ) : ℝ :=
  fftwNumerator T P X old k
    / ((npCorrelateFull T (frameMean P X) (frameMean P X) (T - 1 + k) : ℚ) : ℝ)
    / ((scale : ℚ) : ℝ)

/-- Lagged product sum of the claim: for lag k, the sum over every valid
frame index t and every pixel p of the product of frame t and frame t+k. -/
def lagSum (T P k : ℕ) (X : ℕ → ℕ → ℚ) : ℚ :=
  ∑ t ∈ Finset.range (T - k), ∑ p ∈ Finset.range P, X t p * X (t + k) p

/-- Embedding of get_pixels_in_bin (dense.py lines 424-455): for bin zero
(no qmask) the whole flattened frame is returned; otherwise the columns
where the qmask equals the bin value, in row-major order.  The result is
the pixel count together with the (T, npixels) matrix. -/
def get_pixels_in_bin (npix : ℕ) (frames : ℕ → ℕ → ℚ) (qmask : ℕ → ℕ)
    (bin_val : ℕ) : ℕ × (ℕ → ℕ → ℚ) :=
  if bin_val = 0 then (npix, fun t j => frames t j)
  else
    let ind := (List.range npix).filter (fun j => decide (qmask j = bin_val))
    (ind.length, fun t j => frames t (ind.getD j 0))

/-- Boolean mask of one bin as the dense engine builds it (dense.py line
74, comparing qmask with the bin value); true is embedded as label 1 so
that np.where of mask greater than zero selects exactly the true cells. -/
def binMask (qmask : ℕ → ℕ) (bin_val : ℕ) : ℕ → ℕ :=
  fun j => if qmask j = bin_val then 1 else 0

/-- One cell of the staging buffer after the scatter pass of the CUDA
kernel named extract underscore upper underscore diags (dense.py lines
127-134): thread (x, y), for x and y below N and y not above x, writes
matrix[y, x] into cell (x - y, x); every other thread returns without
writing, and unwritten cells keep the zero fill applied at the start of
sum underscore diagonals (dense.py line 155).  The write map is injective
(cell (d, x) has the unique writer (x, x - d)), so the parallel scatter is
well defined pointwise: cell (d, x) holds matrix[x - d, x] exactly when
d is at most x and x is below N. -/
def extract_upper_diags (N : ℕ) (matrix : ℕ → ℕ → ℚ) : ℕ → ℕ → ℚ :=
  fun d x => if d ≤ x ∧ x < N then matrix (x - d) x else 0

/-- Embedding of the method sum underscore diagonals (dense.py lines
154-158): zero the staging buffer, run the scatter kernel, then reduce each
staging row across axis one. -/
def sum_diagonals (N : ℕ) (matrix : ℕ → ℕ → ℚ) : ℕ → ℚ :=
  fun d => ∑ x ∈ Finset.range N, extract_upper_diags N matrix d x

/-- Constructor guard of DenseFFTwCorrelator (dense.py lines 342-344).  A
missing import leaves the module name None (dense.py lines 21-24); the
constructor then raises ImportError with the message written in the source,
before any further setup. -/
def DenseFFTwCorrelator_init (pyfftw_present : Bool) : Except String Unit :=
  if pyfftw_present = false then Except.error "pyfftw needs to be installed"
  else Except.ok ()

/-- Constructor guard of DenseCuFFTCorrelator (dense.py lines 479-481). -/
def DenseCuFFTCorrelator_init (cufft_present : Bool) : Except String Unit :=
  if cufft_present = false then
    Except.error "pycuda and scikit-cuda need to be installed"
  else Except.ok ()

/-- Constructor guard of CublasMatMulCorrelator (dense.py lines 100-101). -/
def CublasMatMulCorrelator_init (cublas_present : Bool) : Except String Unit :=
  if cublas_present = false then
    Except.error "scikit-cuda is needed to use this correlator"
  else Except.ok ()

/-- Modelled from the spec: scale factors are resolved by BaseCorrelator in
module dynamix.correlator.common, which is not among the sources under
review; section 4.1 of the specification says that when the caller supplies
no per-bin factors, every factor defaults to 1.0. -/
def defaultScaleFactor (bin_val : ℕ) : ℚ := 1

lemma list_map_sum (l : List ℕ) (f : ℕ → ℚ) :
    (l.map f).sum = ∑ j ∈ Finset.range l.length, f (l.getD j 0) := by
  induction l with
  | nil => simp
  | cons a t ih =>
      rw [List.map_cons, List.sum_cons, ih, List.length_cons,
        Finset.sum_range_succ']
      simp [List.getD_cons_succ, List.getD_cons_zero, add_comm]

lemma zipWith_mul_map (l : List ℕ) (f g : ℕ → ℚ) :
    List.zipWith (fun a b => a * b) (l.map f) (l.map g)
      = l.map (fun x => f x * g x) := by
  induction l with
  | nil => simp
  | cons a t ih => simp [ih]

lemma listDot_map (l : List ℕ) (f g : ℕ → ℚ) :
    listDot (l.map f) (l.map g)
      = ∑ j ∈ Finset.range l.length, f (l.getD j 0) * g (l.getD j 0) := by
  rw [listDot, zipWith_mul_map, list_map_sum]

lemma npDiagSum_eq_upperDiagSum (M : ℕ → ℕ → ℚ) (T k : ℕ) :
    npDiagSum M T k = upperDiagSum M T k := by
  rw [npDiagSum, upperDiagSum, list_map_sum, List.length_range]
  refine Finset.sum_congr rfl (fun i hi => ?_)
  rw [Finset.mem_range] at hi
  simp [List.getD, List.getElem?_range, hi]

/-- Closed form of the dense reference correlator: at every lag k it is the
sum of the k-th upper diagonal of the product of X with its transpose,
divided by the matching diagonal sum of the outer product of the per-frame
means, divided by the pixel count. -/
lemma py_dense_correlator_eq (T npix : ℕ) (frames : ℕ → ℕ → ℚ)
    (mask : ℕ → ℕ) (k : ℕ) :
    py_dense_correlator T npix frames mask k =
      upperDiagSum
          (gram (npWhereGtZero npix mask).length
            (maskedMatrix frames (npWhereGtZero npix mask))) T k
        / upperDiagSum
            (outerSq
              (frameMean (npWhereGtZero npix mask).length
                (maskedMatrix frames (npWhereGtZero npix mask)))) T k
        / (npWhereGtZero npix mask).length := by
  simp only [py_dense_correlator]
  rw [npDiagSum_eq_upperDiagSum, npDiagSum_eq_upperDiagSum]
  congr 2
  · unfold upperDiagSum gram maskedMatrix
    refine Finset.sum_congr rfl (fun i _ => ?_)
    simp only [listDot_map]
  · unfold upperDiagSum outerSq frameMean maskedMatrix
    refine Finset.sum_congr rfl (fun i _ => ?_)
    simp only [list_map_sum]

lemma eN_add (N : ℕ) (x y : ℤ) : eN N (x + y) = eN N x * eN N y := by
  rw [eN, eN, eN, ← Complex.exp_add]
  congr 1
  push_cast
  ring

lemma eN_mul_nat (N : ℕ) (d : ℤ) (k : ℕ) : eN N (d * k) = eN N d ^ k := by
  rw [eN, eN, ← Complex.exp_nat_mul]
  congr 1
  push_cast
  ring

lemma eN_dvd_eq_one (N : ℕ) (hN : 0 < N) (d : ℤ) (h : (N : ℤ) ∣ d) :
    eN N d = 1 := by
  obtain ⟨e, he⟩ := h
  have hNC : (N : ℂ) ≠ 0 := Nat.cast_ne_zero.mpr hN.ne'
  rw [eN, he]
  have hx : (2 * Real.pi * Complex.I * ((N : ℂ) * e) / N)
      = (e : ℂ) * (2 * Real.pi * Complex.I) := by
    field_simp
    ring
  rw [show (((N : ℤ) * e : ℤ) : ℂ) = (N : ℂ) * e by push_cast; ring, hx,
    Complex.exp_int_mul_two_pi_mul_I]

lemma eN_ne_one (N : ℕ) (hN : 0 < N) (d : ℤ) (h : ¬ (N : ℤ) ∣ d) :
    eN N d ≠ 1 := by
  intro hc
  rw [eN, Complex.exp_eq_one_iff] at hc
  obtain ⟨m, hm⟩ := hc
  apply h
  have hNC : (N : ℂ) ≠ 0 := Nat.cast_ne_zero.mpr hN.ne'
  have h2 : (2 * (Real.pi : ℂ) * Complex.I : ℂ) ≠ 0 := by
    simp [Real.pi_ne_zero, Complex.I_ne_zero, Complex.ext_iff]
  have hm2 : 2 * (Real.pi : ℂ) * Complex.I * d
      = (m : ℂ) * (2 * Real.pi * Complex.I) * N := by
    field_simp at hm
    linear_combination hm
  have hm3 : (2 * (Real.pi : ℂ) * Complex.I) * (d : ℂ)
      = (2 * (Real.pi : ℂ) * Complex.I) * ((m : ℂ) * N) := by
    linear_combination hm2
  have hd : (d : ℂ) = (m : ℂ) * N := mul_left_cancel₀ h2 hm3
  have hdz : d = m * N := by exact_mod_cast hd
  exact ⟨m, by rw [hdz, mul_comm]⟩

/-- Orthogonality of the Fourier kernels: the sum over one period of the
powers of a fixed kernel vanishes unless the frequency is a multiple of N. -/
lemma sum_eN (N : ℕ) (hN : 0 < N) (d : ℤ) :
    ∑ k ∈ Finset.range N, eN N (d * k)
      = if (N : ℤ) ∣ d then (N : ℂ) else 0 := by
  simp only [eN_mul_nat]
  by_cases h : (N : ℤ) ∣ d
  · rw [if_pos h]
    simp [eN_dvd_eq_one N hN d h]
  · rw [if_neg h, geom_sum_eq (eN_ne_one N hN d h)]
    have hpow : eN N d ^ N = 1 := by
      rw [← eN_mul_nat]
      exact eN_dvd_eq_one N hN (d * N) ⟨d, by ring⟩
    rw [hpow]
    simp

lemma sum_b_ite_dvd (N : ℕ) (hN : 0 < N) (n j : ℕ) (hj : j < N) (b : ℕ → ℂ) :
    ∑ l ∈ Finset.range N,
        b l * (if (N : ℤ) ∣ ((n : ℤ) - j - l) then (N : ℂ) else 0)
      = b ((n + N - j) % N) * N := by
  have hl0 : (n + N - j) % N < N := Nat.mod_lt _ hN
  have hcast : ((n + N - j : ℕ) : ℤ) = (n : ℤ) + N - j := by omega
  have hmodcast : (((n + N - j) % N : ℕ) : ℤ) = ((n : ℤ) + N - j) % N := by
    rw [Int.natCast_mod, hcast]
  have hdvd0 : (N : ℤ) ∣ ((n : ℤ) - j - ((n + N - j) % N : ℕ)) := by
    have h1 : (N : ℤ) ∣ (((n : ℤ) + N - j) - ((n : ℤ) + N - j) % N) :=
      Int.dvd_sub_of_emod_eq rfl
    have h2 : ((n : ℤ) - j - ((n + N - j) % N : ℕ))
        = (((n : ℤ) + N - j) - ((n : ℤ) + N - j) % N) - N := by
      rw [hmodcast]; ring
    rw [h2]
    exact dvd_sub h1 dvd_rfl
  rw [Finset.sum_eq_single ((n + N - j) % N)]
  · rw [if_pos hdvd0]
  · intro l hl hne
    rw [Finset.mem_range] at hl
    rw [if_neg, mul_zero]
    intro hdvd
    apply hne
    have hdiff : (N : ℤ) ∣ ((l : ℤ) - ((n + N - j) % N : ℕ)) := by
      have hsub := dvd_sub hdvd0 hdvd
      have heq : ((n : ℤ) - j - ((n + N - j) % N : ℕ)) - ((n : ℤ) - j - l)
          = (l : ℤ) - ((n + N - j) % N : ℕ) := by ring
      rwa [heq] at hsub
    have hz : (l : ℤ) - ((n + N - j) % N : ℕ) = 0 := by
      refine Int.eq_zero_of_dvd_of_natAbs_lt_natAbs hdiff ?_
      omega
    omega
  · intro hmem
    exact absurd (Finset.mem_range.mpr hl0) hmem

/-- Circular convolution theorem: the normalised backward transform of the
pointwise product of two forward transforms is the circular convolution of
the two input buffers. -/
lemma idft_dft_mul (N : ℕ) (hN : 0 < N) (a b : ℕ → ℂ) (n : ℕ) :
    idft N (fun k => dft N a k * dft N b k) n
      = ∑ m ∈ Finset.range N, a m * b ((n + N - m) % N) := by
  have hNC : (N : ℂ) ≠ 0 := Nat.cast_ne_zero.mpr hN.ne'
  rw [idft]
  have hterm : ∀ k ∈ Finset.range N,
      dft N a k * dft N b k * eN N (n * k)
        = ∑ j ∈ Finset.range N, ∑ l ∈ Finset.range N,
            a j * b l * eN N (((n : ℤ) - j - l) * k) := by
    intro k _
    rw [dft, dft, Finset.sum_mul_sum, Finset.sum_mul]
    refine Finset.sum_congr rfl (fun j _ => ?_)
    rw [Finset.sum_mul]
    refine Finset.sum_congr rfl (fun l _ => ?_)
    rw [show ((n : ℤ) - j - l) * k = (-(j * k)) + (-(l * k)) + n * k by ring,
      eN_add, eN_add]
    ring
  rw [Finset.sum_congr rfl hterm, Finset.sum_comm]
  have hswap : ∀ j ∈ Finset.range N,
      ∑ k ∈ Finset.range N, ∑ l ∈ Finset.range N,
          a j * b l * eN N (((n : ℤ) - j - l) * k)
        = a j * (b ((n + N - j) % N) * N) := by
    intro j hjmem
    rw [Finset.sum_comm]
    have hinner : ∀ l ∈ Finset.range N,
        ∑ k ∈ Finset.range N, a j * b l * eN N (((n : ℤ) - j - l) * k)
          = a j * (b l * (if (N : ℤ) ∣ ((n : ℤ) - j - l) then (N : ℂ) else 0)) := by
      intro l _
      rw [← Finset.mul_sum, sum_eN N hN]
      ring
    rw [Finset.sum_congr rfl hinner, ← Finset.mul_sum,
      sum_b_ite_dvd N hN n j (Finset.mem_range.mp hjmem)]
  rw [Finset.sum_congr rfl hswap]
  rw [show ∑ j ∈ Finset.range N, a j * (b ((n + N - j) % N) * N)
      = (∑ j ∈ Finset.range N, a j * b ((n + N - j) % N)) * N by
    rw [Finset.sum_mul]; exact Finset.sum_congr rfl (fun j _ => by ring)]
  field_simp

lemma conv_padded (L N : ℕ) (h2L : 2 * L ≤ N) (hL : 0 < L) (s srev old : ℕ → ℂ)
    (hold : ∀ i, L ≤ i → old i = 0) (n : ℕ) (hn : n < L) :
    ∑ m ∈ Finset.range N,
        fftwBuffer L s old m * fftwBuffer L srev old ((n + N - m) % N)
      = ∑ m ∈ Finset.range (n + 1), s m * srev (n - m) := by
  have hsub : Finset.range (n + 1) ⊆ Finset.range N :=
    Finset.range_subset.mpr (by omega)
  rw [← Finset.sum_subset hsub]
  · refine Finset.sum_congr rfl (fun m hm => ?_)
    rw [Finset.mem_range] at hm
    have hmn : m ≤ n := by omega
    have hidx : (n + N - m) % N = n - m := by
      have h1 : n + N - m = N + (n - m) := by omega
      rw [h1, Nat.add_mod_left, Nat.mod_eq_of_lt (by omega)]
    rw [hidx, fftwBuffer, fftwBuffer]
    rw [if_pos (by omega : m < L), if_pos (by omega : n - m < L)]
  · intro m hmN hmn
    rw [Finset.mem_range] at hmN
    rw [Finset.mem_range] at hmn
    have hmgt : n < m := by omega
    by_cases hmL : m < L
    · have hidx : (n + N - m) % N = n + N - m := Nat.mod_eq_of_lt (by omega)
      have hge : L ≤ n + N - m := by omega
      rw [hidx, fftwBuffer, fftwBuffer, if_neg (by omega : ¬ n + N - m < L),
        hold _ hge, mul_zero]
    · rw [fftwBuffer, if_neg hmL, hold _ (by omega), zero_mul]

lemma sum_range_mul_reindex (A P : ℕ) (f : ℕ → ℂ) :
    ∑ m ∈ Finset.range (A * P), f m
      = ∑ t ∈ Finset.range A, ∑ p ∈ Finset.range P, f (t * P + p) := by
  induction A with
  | zero => simp
  | succ A ih =>
      rw [Nat.succ_mul, Finset.sum_range_add, ih, Finset.sum_range_succ]

lemma flattenCpx_apply (P : ℕ) (hP : 0 < P) (X : ℕ → ℕ → ℚ) (t p : ℕ)
    (hp : p < P) :
    flattenCpx P X (t * P + p) = ((X t p : ℚ) : ℂ) := by
  have hdiv : (t * P + p) / P = t := by
    rw [mul_comm, Nat.mul_add_div hP, Nat.div_eq_of_lt hp, add_zero]
  have hmod : (t * P + p) % P = p := by
    rw [mul_comm, Nat.mul_add_mod, Nat.mod_eq_of_lt hp]
  rw [flattenCpx, hdiv, hmod]

/-- The first T times P cells of the inverse-transform buffer, read at flat
index (T-k)*P - 1, give exactly the lag-k product sum, provided the buffer
tail beyond the signal was zero when the transforms ran (a freshly zeroed
plan buffer). -/
lemma correlate1dRes_eq_lagSum (T P k : ℕ) (X : ℕ → ℕ → ℚ) (old : ℕ → ℂ)
    (hP : 0 < P) (hk : k < T)
    (hold : ∀ i, T * P ≤ i → old i = 0) :
    correlate1dRes T P X old ((T - k) * P - 1) = ((lagSum T P k X : ℚ) : ℂ) := by
  have hT : 0 < T := by omega
  have hL : 0 < T * P := Nat.mul_pos hT hP
  have h2L : 2 * (T * P) ≤ nextpow2 (2 * (T * P)) :=
    Nat.le_pow_clog (by norm_num) _
  have hNpos : 0 < nextpow2 (2 * (T * P)) := by
    rw [nextpow2]; positivity
  have hmul1 : (T - k) * P ≤ T * P := Nat.mul_le_mul_right P (by omega)
  have hmul2 : 0 < (T - k) * P := Nat.mul_pos (by omega) hP
  have hTP : T * P = (T - k) * P + k * P := by
    rw [← Nat.add_mul]
    congr 1
    omega
  have hn : (T - k) * P - 1 < T * P := by omega
  simp only [correlate1dRes]
  rw [idft_dft_mul _ hNpos, conv_padded (T * P) _ h2L hL _ _ _ hold _ hn]
  have hrev : ∀ m ∈ Finset.range ((T - k) * P - 1 + 1),
      flattenCpx P X m
          * flattenCpx P X (T * P - 1 - ((T - k) * P - 1 - m))
        = flattenCpx P X m * flattenCpx P X (k * P + m) := by
    intro m hm
    rw [Finset.mem_range] at hm
    congr 2
    omega
  rw [Finset.sum_congr rfl hrev,
    show (T - k) * P - 1 + 1 = (T - k) * P by omega,
    sum_range_mul_reindex]
  rw [lagSum]
  push_cast
  refine Finset.sum_congr rfl (fun t ht => Finset.sum_congr rfl (fun p hp => ?_))
  rw [Finset.mem_range] at ht hp
  rw [flattenCpx_apply P hP X t p hp,
    show k * P + (t * P + p) = (t + k) * P + p by ring,
    flattenCpx_apply P hP X (t + k) p hp]

/-- The nonnegative-lag half of the full autocorrelation of a length-T
sequence: entry k of the slice starting at index T - 1 is the sum of the
products of the sequence with itself shifted by k. -/
lemma npCorrelateFull_slice (T k : ℕ) (hk : k < T) (m : ℕ → ℚ) :
    npCorrelateFull T m m (T - 1 + k)
      = ∑ t ∈ Finset.range (T - k), m (t + k) * m t := by
  have hsplit : Finset.range T = Finset.range (k + (T - k)) := by
    congr 1
    omega
  rw [npCorrelateFull, hsplit, Finset.sum_range_add]
  have hzero : ∀ i ∈ Finset.range k,
      (if T - 1 + k ≤ i + (T - 1) ∧ i + (T - 1) - (T - 1 + k) < T
        then m i * m (i + (T - 1) - (T - 1 + k)) else 0) = 0 := by
    intro i hi
    rw [Finset.mem_range] at hi
    rw [if_neg]
    intro hcond
    omega
  rw [Finset.sum_eq_zero hzero, zero_add]
  refine Finset.sum_congr rfl (fun t ht => ?_)
  rw [Finset.mem_range] at ht
  rw [if_pos (by omega)]
  congr 1
  · congr 1
    omega
  · congr 1
    omega

/-- The k-th upper diagonal sum of the product of X with its transpose is
the lag-k product sum. -/
lemma upperDiagSum_gram (T P k : ℕ) (X : ℕ → ℕ → ℚ) :
    upperDiagSum (gram P X) T k = lagSum T P k X := rfl

/-- The spectral curve of one bin, on a freshly zeroed plan buffer, equals
the exact rational value: lag sum over sliced mean autocorrelation over
scale factor. -/
lemma fftwCorrelate1d_eq_rat (T P : ℕ) (X : ℕ → ℕ → ℚ) (old : ℕ → ℂ)
    (scale : ℚ) (k : ℕ) (hP : 0 < P) (hk : k < T)
    (hold : ∀ i, T * P ≤ i → old i = 0) :
    fftwCorrelate1d T P X old scale k
      = ((lagSum T P k X
            / npCorrelateFull T (frameMean P X) (frameMean P X) (T - 1 + k)
            / scale : ℚ) : ℝ) := by
  rw [fftwCorrelate1d, fftwNumerator,
    correlate1dRes_eq_lagSum T P k X old hP hk hold]
  push_cast
  rfl

lemma npWhereGtZero_binMask (npix : ℕ) (qmask : ℕ → ℕ) (bin_val : ℕ) :
    npWhereGtZero npix (binMask qmask bin_val)
      = (List.range npix).filter (fun j => decide (qmask j = bin_val)) := by
  rw [npWhereGtZero]
  refine List.filter_congr (fun j _ => ?_)
  rw [binMask]
  by_cases h : qmask j = bin_val
  · simp [h]
  · simp [h]

lemma nextpow2_pos (n : ℕ) : 0 < nextpow2 n := by
  rw [nextpow2]
  positivity

lemma nextpow2_four : nextpow2 4 = 4 := by
  have h1 : Nat.clog 2 4 ≤ 2 :=
    (Nat.le_pow_iff_clog_le (by norm_num)).mp (by norm_num)
  have h2 : 1 < Nat.clog 2 4 :=
    (Nat.pow_lt_iff_lt_clog (by norm_num)).mp (by norm_num)
  rw [nextpow2, show Nat.clog 2 4 = 2 by omega]
  norm_num

/-- The inverse-transform buffer written out as the circular convolution of
the two assigned direct buffers, at any output index. -/
lemma correlate1dRes_apply (T P : ℕ) (X : ℕ → ℕ → ℚ) (old : ℕ → ℂ) (n : ℕ) :
    correlate1dRes T P X old n
      = ∑ m ∈ Finset.range (nextpow2 (2 * (T * P))),
          fftwBuffer (T * P) (flattenCpx P X) old m
            * fftwBuffer (T * P) (fun i => flattenCpx P X (T * P - 1 - i)) old
                ((n + nextpow2 (2 * (T * P)) - m) % nextpow2 (2 * (T * P))) := by
  simp only [correlate1dRes]
  exact idft_dft_mul _ (nextpow2_pos _) _ _ n

/-- C2: for every frame stack of T frames and every mask selecting at least
one pixel, the dense reference correlator returns, at every lag k below T,
the sum of the k-th upper diagonal of the product of the masked pixel
matrix X with its transpose, divided by the sum of the k-th upper diagonal
of the outer product of the per-frame mean vector with itself, divided by
the pixel count. -/
theorem C2_py_dense_formula (T npix : ℕ) (frames : ℕ → ℕ → ℚ) (mask : ℕ → ℕ)
    (k : ℕ) (hP : 0 < (npWhereGtZero npix mask).length) (hk : k < T) :
    py_dense_correlator T npix frames mask k
      = upperDiagSum
            (gram (npWhereGtZero npix mask).length
              (maskedMatrix frames (npWhereGtZero npix mask))) T k
          / upperDiagSum
              (outerSq (frameMean (npWhereGtZero npix mask).length
                (maskedMatrix frames (npWhereGtZero npix mask)))) T k
          / (npWhereGtZero npix mask).length :=
  py_dense_correlator_eq T npix frames mask k

/-- Witness for C2 on a concrete two-frame, two-pixel stack. -/
theorem C2_py_dense_formula_witness :
    py_dense_correlator 2 2 (fun t p => (t : ℚ) + p + 1) (fun _ => 1) 1
      = upperDiagSum
            (gram (npWhereGtZero 2 (fun _ => 1)).length
              (maskedMatrix (fun t p => (t : ℚ) + p + 1)
                (npWhereGtZero 2 (fun _ => 1)))) 2 1
          / upperDiagSum
              (outerSq (frameMean (npWhereGtZero 2 (fun _ => 1)).length
                (maskedMatrix (fun t p => (t : ℚ) + p + 1)
                  (npWhereGtZero 2 (fun _ => 1))))) 2 1
          / (npWhereGtZero 2 (fun _ => 1)).length :=
  C2_py_dense_formula 2 2 (fun t p => (t : ℚ) + p + 1) (fun _ => 1) 1
    (by decide) (by norm_num)

/-- C3: the numerator that the spectral correlator reads from the
inverse-transformed buffer (first T times P samples, reshaped to (T, P),
last pixel column, frame order reversed) equals, at every lag k below T,
the sum over all valid frame indices t and all P pixels of the product of
frame t and frame t+k, provided the plan buffer tail beyond the signal held
zeros when the transforms ran (a freshly created, zeroed plan). -/
theorem C3_fftw_numerator (T P : ℕ) (X : ℕ → ℕ → ℚ) (old : ℕ → ℂ) (k : ℕ)
    (hP : 0 < P) (hk : k < T) (hold : ∀ i, T * P ≤ i → old i = 0) :
    fftwNumerator T P X old k = ((lagSum T P k X : ℚ) : ℝ) := by
  rw [fftwNumerator, correlate1dRes_eq_lagSum T P k X old hP hk hold]
  exact Complex.ratCast_re _

/-- Witness for C3 on a concrete two-frame, one-pixel stack. -/
theorem C3_fftw_numerator_witness :
    fftwNumerator 2 1 (fun t _ => (t : ℚ) + 1) (fun _ => 0) 1
      = ((lagSum 2 1 1 (fun t _ => (t : ℚ) + 1) : ℚ) : ℝ) :=
  C3_fftw_numerator 2 1 (fun t _ => (t : ℚ) + 1) (fun _ => 0) 1
    (by norm_num) (by norm_num) (fun i _ => rfl)

/-- C4: the diagonal-sum reduction of CublasMatMulCorrelator maps an
N by N matrix to the length-N vector whose entry k is the sum of the
entries of the k-th upper diagonal (main diagonal at k equal to zero);
entries below the diagonal contribute nothing because the staging buffer is
zero-filled before the scatter pass. -/
theorem C4_sum_diagonals_spec (N : ℕ) (matrix : ℕ → ℕ → ℚ) (k : ℕ)
    (hk : k < N) :
    sum_diagonals N matrix k = ∑ i ∈ Finset.range (N - k), matrix i (i + k) := by
  have hsplit : Finset.range N = Finset.range (k + (N - k)) := by
    congr 1
    omega
  rw [sum_diagonals, hsplit, Finset.sum_range_add]
  have hzero : ∀ x ∈ Finset.range k, extract_upper_diags N matrix k x = 0 := by
    intro x hx
    rw [Finset.mem_range] at hx
    rw [extract_upper_diags, if_neg]
    intro hcond
    omega
  rw [Finset.sum_eq_zero hzero, zero_add]
  refine Finset.sum_congr rfl (fun i hi => ?_)
  rw [Finset.mem_range] at hi
  rw [extract_upper_diags, if_pos (by omega : k ≤ k + i ∧ k + i < N)]
  rw [show k + i - k = i by omega, add_comm k i]

/-- Witness for C4 on a concrete three by three matrix at lag one. -/
theorem C4_sum_diagonals_spec_witness :
    sum_diagonals 3 (fun i j => (i : ℚ) + 3 * j) 1
      = ∑ i ∈ Finset.range (3 - 1), ((i : ℚ) + 3 * ((i + 1 : ℕ) : ℚ)) :=
  C4_sum_diagonals_spec 3 (fun i j => (i : ℚ) + 3 * j) 1 (by norm_num)

/-- C6: the dense reference correlator computes the entry at lag T - 1 by
the same diagonal-sum-and-divide formula as every other lag: it is the dot
product of the first and last frame rows over the product of their means
over the pixel count, never a special-cased constant. -/
theorem C6_last_lag_formula (T npix : ℕ) (frames : ℕ → ℕ → ℚ)
    (mask : ℕ → ℕ) (hT : 0 < T) :
    py_dense_correlator T npix frames mask (T - 1)
      = gram (npWhereGtZero npix mask).length
            (maskedMatrix frames (npWhereGtZero npix mask)) 0 (T - 1)
          / (frameMean (npWhereGtZero npix mask).length
                (maskedMatrix frames (npWhereGtZero npix mask)) 0
              * frameMean (npWhereGtZero npix mask).length
                  (maskedMatrix frames (npWhereGtZero npix mask)) (T - 1))
          / (npWhereGtZero npix mask).length := by
  rw [py_dense_correlator_eq]
  rw [upperDiagSum, upperDiagSum, show T - (T - 1) = 1 by omega,
    Finset.sum_range_one, Finset.sum_range_one, outerSq, Nat.zero_add]

/-- Witness for C6 on a concrete single-frame, single-pixel stack. -/
theorem C6_last_lag_formula_witness :
    py_dense_correlator 1 1 (fun _ _ => (2 : ℚ)) (fun _ => 1) (1 - 1)
      = gram (npWhereGtZero 1 (fun _ => 1)).length
            (maskedMatrix (fun _ _ => (2 : ℚ)) (npWhereGtZero 1 (fun _ => 1)))
            0 (1 - 1)
          / (frameMean (npWhereGtZero 1 (fun _ => 1)).length
                (maskedMatrix (fun _ _ => (2 : ℚ))
                  (npWhereGtZero 1 (fun _ => 1))) 0
              * frameMean (npWhereGtZero 1 (fun _ => 1)).length
                  (maskedMatrix (fun _ _ => (2 : ℚ))
                    (npWhereGtZero 1 (fun _ => 1))) (1 - 1))
          / (npWhereGtZero 1 (fun _ => 1)).length :=
  C6_last_lag_formula 1 1 (fun _ _ => (2 : ℚ)) (fun _ => 1) (by norm_num)

/-- C7 as stated is false: with one selected pixel whose values are all
zero, every diagonal sum is zero, the curve entry is the indeterminate
quotient zero over zero (NaN in the floating-point code, zero in the exact
embedding), not the claimed one. -/
theorem C7_counterexample :
    py_dense_correlator 1 1 (fun _ _ => (0 : ℚ)) (fun _ => 1) 0 ≠ 1 := by
  rw [py_dense_correlator_eq]
  norm_num [upperDiagSum, gram, outerSq, frameMean, maskedMatrix,
    npWhereGtZero, List.range_succ, Finset.sum_range_one]

/-- C7 amended: with exactly one selected pixel, the dense curve equals one
at every lag whose diagonal sum of the squared pixel values is nonzero
(for all-zero data the entry is the indeterminate quotient zero over zero,
NaN in the code). -/
theorem C7_single_pixel (T npix : ℕ) (frames : ℕ → ℕ → ℚ) (mask : ℕ → ℕ)
    (k : ℕ) (hk : k < T)
    (h1 : (npWhereGtZero npix mask).length = 1)
    (hnz : upperDiagSum
        (gram 1 (maskedMatrix frames (npWhereGtZero npix mask))) T k ≠ 0) :
    py_dense_correlator T npix frames mask k = 1 := by
  rw [py_dense_correlator_eq, h1]
  have hden : upperDiagSum
      (outerSq (frameMean 1 (maskedMatrix frames (npWhereGtZero npix mask)))) T k
        = upperDiagSum
            (gram 1 (maskedMatrix frames (npWhereGtZero npix mask))) T k := by
    unfold upperDiagSum
    refine Finset.sum_congr rfl (fun i _ => ?_)
    simp [outerSq, gram, frameMean, Finset.sum_range_one]
  rw [hden, div_self hnz]
  norm_num

/-- Witness for the amended C7 on a concrete all-ones stack. -/
theorem C7_single_pixel_witness :
    py_dense_correlator 1 1 (fun _ _ => (1 : ℚ)) (fun _ => 1) 0 = 1 :=
  C7_single_pixel 1 1 (fun _ _ => (1 : ℚ)) (fun _ => 1) 0
    (by norm_num) (by decide)
    (by norm_num [upperDiagSum, gram, maskedMatrix, npWhereGtZero,
      List.range_succ, Finset.sum_range_one])

/-- C8: multiplying the scale factor of a bin by a positive constant c
divides every entry of the spectral curve of that bin by c; the scale
factor enters the computation only as the final division. -/
theorem C8_scale_inverse (T P : ℕ) (X : ℕ → ℕ → ℚ) (old : ℕ → ℂ)
    (s c : ℚ) (k : ℕ) (hc : 0 < c) :
    fftwCorrelate1d T P X old (c * s) k
      = fftwCorrelate1d T P X old s k / (c : ℝ) := by
  rw [fftwCorrelate1d, fftwCorrelate1d]
  push_cast
  rw [mul_comm (c : ℝ), ← div_div]

/-- Witness for C8 on a concrete one-frame, one-pixel bin with c = 2. -/
theorem C8_scale_inverse_witness :
    fftwCorrelate1d 1 1 (fun _ _ => (1 : ℚ)) (fun _ => 0) (2 * 1) 0
      = fftwCorrelate1d 1 1 (fun _ _ => (1 : ℚ)) (fun _ => 0) 1 0 / ((2 : ℚ) : ℝ) :=
  C8_scale_inverse 1 1 (fun _ _ => (1 : ℚ)) (fun _ => 0) 1 2 0 (by norm_num)

/-- C9: constructing a correlator whose required external facility is
absent fails at construction time with the ImportError of the source, for
each of the three accelerated correlators; no silent fallback happens. -/
theorem C9_missing_facility :
    DenseFFTwCorrelator_init false
        = Except.error "pyfftw needs to be installed"
    ∧ DenseCuFFTCorrelator_init false
        = Except.error "pycuda and scikit-cuda need to be installed"
    ∧ CublasMatMulCorrelator_init false
        = Except.error "scikit-cuda is needed to use this correlator" :=
  ⟨rfl, rfl, rfl⟩

/-- C10: requesting bin value zero from get_pixels_in_bin returns the whole
flattened frame stack (all pixels of every frame), whatever the qmask holds:
label zero is the no-mask sentinel, never a real bin of selected pixels. -/
theorem C10_bin_zero_all_pixels (npix : ℕ) (frames : ℕ → ℕ → ℚ)
    (qmask qmask2 : ℕ → ℕ) :
    get_pixels_in_bin npix frames qmask 0 = (npix, fun t j => frames t j)
    ∧ get_pixels_in_bin npix frames qmask 0
        = get_pixels_in_bin npix frames qmask2 0 :=
  ⟨rfl, rfl⟩

/-- C1 as stated fails on the defaults the specification gives for the
missing parameter-model code: with the default scale factor 1 and a bin of
two pixels, the dense reference divides by the pixel count while the
spectral curve divides only by the scale factor, so on an all-ones stack
of one frame the dense curve is 1 and the spectral curve is 2, far outside
the stated relative tolerance. -/
theorem C1_counterexample :
    ¬ (|fftwCorrelate1d 1 2 (fun _ _ => (1 : ℚ)) (fun _ => 0)
          (defaultScaleFactor 1) 0
        - ((py_dense_correlator 1 2 (fun _ _ => (1 : ℚ))
              (binMask (fun _ => 1) 1) 0 : ℚ) : ℝ)|
        ≤ (1 / 10000)
          * |fftwCorrelate1d 1 2 (fun _ _ => (1 : ℚ)) (fun _ => 0)
              (defaultScaleFactor 1) 0|) := by
  have hs : fftwCorrelate1d 1 2 (fun _ _ => (1 : ℚ)) (fun _ => 0)
      (defaultScaleFactor 1) 0 = ((2 : ℚ) : ℝ) := by
    rw [fftwCorrelate1d_eq_rat 1 2 _ _ _ 0 (by norm_num) (by norm_num)
      (fun i _ => rfl)]
    norm_num [lagSum, npCorrelateFull, frameMean, defaultScaleFactor,
      Finset.sum_range_succ, Finset.sum_range_one]
  have hd : py_dense_correlator 1 2 (fun _ _ => (1 : ℚ))
      (binMask (fun _ => 1) 1) 0 = 1 := by
    rw [py_dense_correlator_eq]
    norm_num [upperDiagSum, gram, outerSq, frameMean, maskedMatrix,
      npWhereGtZero, binMask, List.range_succ, Finset.sum_range_succ,
      Finset.sum_range_one]
  rw [hs, hd]
  norm_num

/-- C1 amended (scale factors spec-modelled): when the scale factor of the
bin equals the pixel count of the bin, the dense reference per-bin curve
and the spectral per-bin curve coincide exactly, hence agree within the
relative tolerance 1/10000, for every frame stack, every positive bin
label and every lag below T, on a freshly zeroed plan buffer. -/
theorem C1_agree_pixelcount_scale (T npix : ℕ) (frames : ℕ → ℕ → ℚ)
    (qmask : ℕ → ℕ) (bin_val k : ℕ) (old : ℕ → ℂ)
    (hbin : 0 < bin_val) (hk : k < T)
    (hP : 0 < (get_pixels_in_bin npix frames qmask bin_val).1)
    (hold : ∀ i, T * (get_pixels_in_bin npix frames qmask bin_val).1 ≤ i
      → old i = 0) :
    |fftwCorrelate1d T (get_pixels_in_bin npix frames qmask bin_val).1
        (get_pixels_in_bin npix frames qmask bin_val).2 old
        ((get_pixels_in_bin npix frames qmask bin_val).1 : ℚ) k
      - ((py_dense_correlator T npix frames (binMask qmask bin_val) k : ℚ) : ℝ)|
      ≤ (1 / 10000)
        * |fftwCorrelate1d T (get_pixels_in_bin npix frames qmask bin_val).1
            (get_pixels_in_bin npix frames qmask bin_val).2 old
            ((get_pixels_in_bin npix frames qmask bin_val).1 : ℚ) k| := by
  have hne : ¬ bin_val = 0 := by omega
  have hgp : get_pixels_in_bin npix frames qmask bin_val
      = ((npWhereGtZero npix (binMask qmask bin_val)).length,
          maskedMatrix frames (npWhereGtZero npix (binMask qmask bin_val))) := by
    rw [get_pixels_in_bin, if_neg hne, npWhereGtZero_binMask]
    rfl
  simp only [hgp] at hP hold ⊢
  have key : fftwCorrelate1d T
        (npWhereGtZero npix (binMask qmask bin_val)).length
        (maskedMatrix frames (npWhereGtZero npix (binMask qmask bin_val))) old
        ((npWhereGtZero npix (binMask qmask bin_val)).length : ℚ) k
      = ((py_dense_correlator T npix frames (binMask qmask bin_val) k : ℚ) : ℝ) := by
    rw [fftwCorrelate1d_eq_rat _ _ _ _ _ k hP hk hold,
      py_dense_correlator_eq]
    congr 1
    rw [upperDiagSum_gram, npCorrelateFull_slice T k hk]
    congr 2
    rw [upperDiagSum]
    refine Finset.sum_congr rfl (fun i _ => ?_)
    simp only [outerSq]
    ring
  rw [key, sub_self, abs_zero]
  positivity

/-- Witness for the amended C1 on a concrete one-frame, two-pixel bin. -/
theorem C1_agree_pixelcount_scale_witness :
    |fftwCorrelate1d 1
        (get_pixels_in_bin 2 (fun _ _ => (1 : ℚ)) (fun _ => 1) 1).1
        (get_pixels_in_bin 2 (fun _ _ => (1 : ℚ)) (fun _ => 1) 1).2
        (fun _ => 0)
        ((get_pixels_in_bin 2 (fun _ _ => (1 : ℚ)) (fun _ => 1) 1).1 : ℚ) 0
      - ((py_dense_correlator 1 2 (fun _ _ => (1 : ℚ))
            (binMask (fun _ => 1) 1) 0 : ℚ) : ℝ)|
      ≤ (1 / 10000)
        * |fftwCorrelate1d 1
            (get_pixels_in_bin 2 (fun _ _ => (1 : ℚ)) (fun _ => 1) 1).1
            (get_pixels_in_bin 2 (fun _ _ => (1 : ℚ)) (fun _ => 1) 1).2
            (fun _ => 0)
            ((get_pixels_in_bin 2 (fun _ _ => (1 : ℚ)) (fun _ => 1) 1).1 : ℚ) 0| :=
  C1_agree_pixelcount_scale 1 2 (fun _ _ => (1 : ℚ)) (fun _ => 1) 1 0
    (fun _ => 0) (by norm_num) (by norm_num) (by decide) (fun i _ => rfl)

/-- C5 is violated by the source: DenseFFTwCorrelator reuses the cached
plan buffers across calls without clearing them (get underscore plan,
dense.py lines 379-394, unlike the CUFFT variant, which zero-fills reused
buffers at dense.py lines 524-526), and the backward transform writes its
full length-N result into the direct buffer; so the second computation of
the same bin curve sees the residue of the first in the padding region.
On the two-frame single-pixel stack with values 1 and 2, the lag-1 entry
is 1 on the first call and 3 on the second call on the cached plan. -/
theorem C5_plan_reuse_changes_result :
    fftwCorrelate1d 2 1 (fun t _ => (t : ℚ) + 1) (fun _ => 0) 1 1 = 1
    ∧ fftwCorrelate1d 2 1 (fun t _ => (t : ℚ) + 1)
        (correlate1dRes 2 1 (fun t _ => (t : ℚ) + 1) (fun _ => 0)) 1 1 = 3 := by
  have hflat : ∀ m : ℕ, flattenCpx 1 (fun t _ => (t : ℚ) + 1) m = (m : ℂ) + 1 := by
    intro m
    rw [flattenCpx, Nat.div_one]
    push_cast
    ring
  have hfirst : fftwCorrelate1d 2 1 (fun t _ => (t : ℚ) + 1) (fun _ => 0) 1 1
      = 1 := by
    rw [fftwCorrelate1d_eq_rat 2 1 _ _ _ 1 (by norm_num) (by norm_num)
      (fun i _ => rfl)]
    norm_num [lagSum, npCorrelateFull, frameMean, Finset.sum_range_succ,
      Finset.sum_range_one]
  have hbuf2 : correlate1dRes 2 1 (fun t _ => (t : ℚ) + 1) (fun _ => 0) 2
      = 2 := by
    rw [correlate1dRes_apply, show (2 : ℕ) * (2 * 1) = 4 from rfl, nextpow2_four,
      Finset.sum_range_succ, Finset.sum_range_succ, Finset.sum_range_succ,
      Finset.sum_range_succ, Finset.sum_range_zero]
    norm_num [fftwBuffer, hflat]
  have hbuf3 : correlate1dRes 2 1 (fun t _ => (t : ℚ) + 1) (fun _ => 0) 3
      = 0 := by
    rw [correlate1dRes_apply, show (2 : ℕ) * (2 * 1) = 4 from rfl, nextpow2_four,
      Finset.sum_range_succ, Finset.sum_range_succ, Finset.sum_range_succ,
      Finset.sum_range_succ, Finset.sum_range_zero]
    norm_num [fftwBuffer, hflat]
  have hnum2 : correlate1dRes 2 1 (fun t _ => (t : ℚ) + 1)
      (correlate1dRes 2 1 (fun t _ => (t : ℚ) + 1) (fun _ => 0)) 0 = 6 := by
    rw [correlate1dRes_apply, show (2 : ℕ) * (2 * 1) = 4 from rfl, nextpow2_four,
      Finset.sum_range_succ, Finset.sum_range_succ, Finset.sum_range_succ,
      Finset.sum_range_succ, Finset.sum_range_zero]
    norm_num [fftwBuffer, hflat, hbuf2, hbuf3]
  refine ⟨hfirst, ?_⟩
  rw [fftwCorrelate1d, fftwNumerator, show (2 - 1) * 1 - 1 = 0 from rfl, hnum2]
  norm_num [npCorrelateFull, frameMean, Finset.sum_range_succ,
    Finset.sum_range_one, Complex.re_ofNat]

end Dynamix
